import Mathlib

/-!
Verification of the gamma-spectrum classification core
(`app/spectrum.py`, `app/ml_models.py`, `app/models.py`).

The Python code works on numpy float64 arrays; the embedding models the
numeric values as exact rationals (`ℚ`), except inside the calibration
inversion, where the real square root of the discriminant is taken over `ℝ`
and immediately truncated to an integer channel index, exactly as the source
does with `int(...)`.

Fallible Python code (code that can raise) is modelled with
`Except PyError`; the `PyError` constructors name the concrete Python
exception classes that the corresponding numpy/scipy operations raise.
-/

set_option autoImplicit false
set_option maxRecDepth 100000

namespace GammaSpec

/-- Equality of `Except` results is decidable when both components are. -/
instance {ε α : Type} [DecidableEq ε] [DecidableEq α] : DecidableEq (Except ε α) := fun a b =>
  match a, b with
  | .error e, .error f =>
    decidable_of_iff (e = f) ⟨fun h => by rw [h], fun h => by cases h; rfl⟩
  | .error _, .ok _ => isFalse (fun h => Except.noConfusion h)
  | .ok _, .error _ => isFalse (fun h => Except.noConfusion h)
  | .ok x, .ok y =>
    decidable_of_iff (x = y) ⟨fun h => by rw [h], fun h => by cases h; rfl⟩

/-- Python exception classes that can escape the numeric pipeline:
`ValueError` (e.g. `int(nan)`, `max` of an empty array, a smoothing window
longer than the data), `OverflowError` (`int(inf)`), and `IndexError`
(list/array index out of range). -/
inductive PyError where
  | valueError
  | overflowError
  | indexError
deriving DecidableEq

/-- Radiation spectrum data (`models.Spectrum`): acquisition duration in
seconds (the source stores a `timedelta`; `get_duration()` returns its
total seconds, modelled directly as the number of seconds), the quadratic
energy-calibration coefficients `a0, a1, a2`, and one count per channel.
Counts are rationals because normalization divides them. -/
structure Spectrum where
  duration : ℚ
  a0 : ℚ
  a1 : ℚ
  a2 : ℚ
  counts : List ℚ
deriving DecidableEq

/-- Sequential effectful map over a list, failing at the first error, as a
Python list comprehension does when the body raises. -/
def mapE {α β : Type} (f : α → Except PyError β) : List α → Except PyError (List β)
  | [] => .ok []
  | x :: xs =>
    match f x with
    | .error e => .error e
    | .ok y =>
      match mapE f xs with
      | .error e => .error e
      | .ok ys => .ok (y :: ys)

/-- Python/numpy sequence indexing `l[i]`: a negative index `i` with
`-len l ≤ i < 0` wraps around to `len l + i`; an index outside
`[-len l, len l)` raises `IndexError`. -/
def pyIndex (l : List ℚ) (i : ℤ) : Except PyError ℚ :=
  if 0 ≤ i ∧ i < l.length then .ok (l.getD i.toNat 0)
  else if -(l.length : ℤ) ≤ i ∧ i < 0 then .ok (l.getD (i + l.length).toNat 0)
  else .error .indexError

/-- Maximum of a numpy array (`arr.max()`): raises `ValueError` on an empty
array, otherwise folds `max` over the elements. -/
def npMax (l : List ℚ) : Except PyError ℚ :=
  match l with
  | [] => .error .valueError
  | x :: xs => .ok (xs.foldl max x)

/-- Truncation toward zero, the behaviour of Python `int()` on a real
number. -/
noncomputable def truncInt (x : ℝ) : ℤ := if 0 ≤ x then ⌊x⌋ else ⌈x⌉

namespace SpectrumPreprocessing

/-- Model of `SpectrumPreprocessing.channel_to_energy`: evaluates the quadratic
calibration `a0 + a1*ch + a2*ch^2`. -/
def channel_to_energy (spectrum : Spectrum) (ch : ℚ) : ℚ :=
  spectrum.a0 + spectrum.a1 * ch + spectrum.a2 * ch ^ 2

/-- Model of `SpectrumPreprocessing.energy_to_channel`: inverts the calibration via
`int((np.sqrt(a1**2 - 4*a2*(a0 - e)) - a1) / (2*a2))`.
When the discriminant is negative, `np.sqrt` returns `nan`, the whole
expression is `nan`, and `int(nan)` raises `ValueError`.
When `a2 = 0` the division is by zero: numpy division of a float by zero
yields `inf` (numerator nonzero, here `sqrt(a1^2) - a1 > 0` iff `a1 < 0`,
making `int(inf)` raise `OverflowError`) or `nan` (numerator zero, when
`a1 ≥ 0`, making `int(nan)` raise `ValueError`). -/
noncomputable def energy_to_channel (spectrum : Spectrum) (e : ℚ) : Except PyError ℤ :=
  let c : ℚ := spectrum.a0 - e
  let disc : ℚ := spectrum.a1 ^ 2 - 4 * spectrum.a2 * c
  if disc < 0 then .error .valueError
  else if spectrum.a2 = 0 then
    (if spectrum.a1 < 0 then .error .overflowError else .error .valueError)
  else
    .ok (truncInt ((Real.sqrt (disc : ℝ) - (spectrum.a1 : ℝ)) / (2 * (spectrum.a2 : ℝ))))

/-- Model of `SpectrumPreprocessing._smooth_data`: applies `scipy.signal.savgol_filter`
with `window_length = 20`, then `np.clip(·, a_min=0, a_max=None)`.
The filter itself is external library code; the embedding takes it as an
explicit parameter `savgol` (theorems assume only what scipy guarantees,
e.g. that it preserves the array length). `savgol_filter` raises
`ValueError` when the window length exceeds the data length. -/
def smooth_data (savgol : List ℚ → List ℚ) (data : List ℚ) : Except PyError (List ℚ) :=
  if data.length < 20 then .error .valueError
  else .ok ((savgol data).map (fun x => max x 0))

/-- Model of `SpectrumPreprocessing._normalize`: smooths the counts, takes the
maximum of the smoothed counts, and divides every smoothed count by it,
returning a new `Spectrum` with the same duration and calibration.
Note: when the maximum is zero, numpy division `counts/0` does not raise;
it emits a warning and produces `nan`/`inf` values. The embedding's
division by zero likewise succeeds (rational `x / 0 = 0` stands in for the
non-raising numpy result). -/
def _normalize (savgol : List ℚ → List ℚ) (spectrum : Spectrum) : Except PyError Spectrum :=
  match smooth_data savgol spectrum.counts with
  | .error e => .error e
  | .ok counts =>
    match npMax counts with
    | .error e => .error e
    | .ok val_norm =>
      .ok { duration := spectrum.duration
            a0 := spectrum.a0
            a1 := spectrum.a1
            a2 := spectrum.a2
            counts := counts.map (fun x => x / val_norm) }

/-- Model of `SpectrumPreprocessing.convert_to_features`: normalizes the spectrum,
maps each isotope-table entry `(name, energy)` to
`energy_to_channel(spectrum, energy)`, and reads the normalized count at
each resulting channel. -/
noncomputable def convert_to_features (savgol : List ℚ → List ℚ) (spectrum : Spectrum)
    (isotopes : List (String × ℚ)) : Except PyError (List ℚ) :=
  match _normalize savgol spectrum with
  | .error e => .error e
  | .ok sp_norm =>
    match mapE (fun energy => energy_to_channel spectrum energy) (isotopes.map Prod.snd) with
    | .error e => .error e
    | .ok channels => mapE (fun ch => pyIndex sp_norm.counts ch) channels

end SpectrumPreprocessing

namespace IsotopesClassificationModel

/-- Minimum duration constant
`IsotopesClassificationModel.MIN_SPECTRUM_DURATION_SEC = 30` (seconds). -/
def MIN_SPECTRUM_DURATION_SEC : ℚ := 30

/-- Model of `IsotopesClassificationModel.predict`: returns the sentinel string
`"Not Enough Data"` when the spectrum duration is below
`MIN_SPECTRUM_DURATION_SEC = 30` seconds; otherwise extracts features and
runs the pretrained classifier (the XGBoost classifier composed with the
label decoder is external state, modelled as an abstract total function
`classifier`). There is no exception handling in the source: any error
raised by feature extraction propagates to the caller. -/
noncomputable def predict (savgol : List ℚ → List ℚ) (classifier : List ℚ → String)
    (isotopes : List (String × ℚ)) (spectrum : Spectrum) : Except PyError String :=
  if spectrum.duration < IsotopesClassificationModel.MIN_SPECTRUM_DURATION_SEC then
    .ok "Not Enough Data"
  else
    match SpectrumPreprocessing.convert_to_features savgol spectrum isotopes with
    | .error e => .error e
    | .ok features => .ok (classifier features)

end IsotopesClassificationModel

/-! Section: debug text serialization

`SpectrumPreprocessing.to_string` renders a spectrum as
`duration_seconds;a0;a1;a2;count0,count1,...,countN`, with every number
printed by Python's `str`. The embedding models this for integer-valued
spectra (`SpectrumZ`), where `str` prints exactly the decimal numeral
(possibly with a leading `-`); counts are the non-negative integers the
ingestion adapters must supply. Strings are modelled as `List Char`. -/

/-- Decimal digit characters, in value order. -/
def digitChars : List Char := ['0', '1', '2', '3', '4', '5', '6', '7', '8', '9']

/-- Character for a single decimal digit (values `0..9`). -/
def digitChar (d : ℕ) : Char :=
  if d = 0 then '0' else if d = 1 then '1' else if d = 2 then '2'
  else if d = 3 then '3' else if d = 4 then '4' else if d = 5 then '5'
  else if d = 6 then '6' else if d = 7 then '7' else if d = 8 then '8' else '9'

/-- Numeric value of a decimal digit character (`0` on anything else). -/
def charDigit (c : Char) : ℕ :=
  if c = '0' then 0 else if c = '1' then 1 else if c = '2' then 2
  else if c = '3' then 3 else if c = '4' then 4 else if c = '5' then 5
  else if c = '6' then 6 else if c = '7' then 7 else if c = '8' then 8
  else if c = '9' then 9 else 0

/-- Decimal rendering of a natural number, accumulator form. -/
def natCharsAux (n : ℕ) (acc : List Char) : List Char :=
  if n < 10 then digitChar n :: acc
  else natCharsAux (n / 10) (digitChar (n % 10) :: acc)
termination_by n
decreasing_by exact Nat.div_lt_self (by omega) (by omega)

/-- Decimal rendering of a natural number, as Python `str` prints it. -/
def natChars (n : ℕ) : List Char := natCharsAux n []

/-- Decimal rendering of an integer, as Python `str` prints it. -/
def intChars (z : ℤ) : List Char :=
  if z < 0 then '-' :: natChars z.natAbs else natChars z.toNat

/-- Parse a decimal numeral (fold of digits). -/
def parseNat (cs : List Char) : ℕ :=
  cs.foldl (fun acc c => 10 * acc + charDigit c) 0

/-- Parse an optionally `-`-signed decimal numeral. -/
def parseInt (cs : List Char) : ℤ :=
  if cs.head? = some '-' then -(parseNat cs.tail : ℤ) else (parseNat cs : ℤ)

/-- Join character lists with a separator, as Python `sep.join(...)`. -/
def joinSep (sep : Char) : List (List Char) → List Char
  | [] => []
  | [x] => x
  | x :: y :: t => x ++ sep :: joinSep sep (y :: t)

/-- Split a character list at every separator, as Python `s.split(sep)`. -/
def splitSep (sep : Char) : List Char → List (List Char)
  | [] => [[]]
  | c :: cs =>
    match splitSep sep cs with
    | [] => [[c]]
    | h :: t => if c = sep then [] :: h :: t else (c :: h) :: t

/-- Validity of an unsigned decimal numeral field. -/
def validNat (cs : List Char) : Bool :=
  !cs.isEmpty && cs.all (fun c => decide (c ∈ digitChars))

/-- Validity of an optionally signed decimal numeral field. -/
def validInt (cs : List Char) : Bool :=
  if cs.head? = some '-' then validNat cs.tail else validNat cs

/-- Integer-valued spectrum for the debug text serialization: duration in
whole seconds (`to_string` prints `int(duration.total_seconds())`),
integer-valued calibration coefficients, and the raw non-negative integer
counts. -/
structure SpectrumZ where
  duration : ℕ
  a0 : ℤ
  a1 : ℤ
  a2 : ℤ
  counts : List ℕ
deriving DecidableEq

namespace SpectrumPreprocessing

/-- Model of `SpectrumPreprocessing.to_string`: renders
`f"{int(sp.duration.total_seconds())};{sp.a0};{sp.a1};{sp.a2};{counts_str}"`
with `counts_str = ",".join(str(cnt) for cnt in sp.counts)`. -/
def to_string (sp : SpectrumZ) : List Char :=
  joinSep ';'
    [natChars sp.duration, intChars sp.a0, intChars sp.a1, intChars sp.a2,
     joinSep ',' (sp.counts.map natChars)]

/-- Modelled from the spec: the repository serializes spectra with
`to_string` but contains no parser for the debug text layout; this parser
follows the spec's literal layout
`duration_seconds;a0;a1;a2;count0,count1,...,countN` (semicolon-separated
header, comma-separated counts), rejecting input that does not consist of
exactly five fields of decimal numerals. -/
def load_from_text (s : List Char) : Option SpectrumZ :=
  match splitSep ';' s with
  | [d, x0, x1, x2, cs] =>
    if validNat d && validInt x0 && validInt x1 && validInt x2
        && ((splitSep ',' cs).all validNat) then
      some { duration := parseNat d, a0 := parseInt x0, a1 := parseInt x1,
             a2 := parseInt x2, counts := (splitSep ',' cs).map parseNat }
    else none
  | _ => none

/-- Well-formed debug text: the serialization of some integer-valued
spectrum with at least one count (the layout always shows `count0`). -/
def wellFormedText (s : List Char) : Prop :=
  ∃ sp : SpectrumZ, sp.counts ≠ [] ∧ to_string sp = s

end SpectrumPreprocessing

/-! Section: helper lemmas -/

open SpectrumPreprocessing IsotopesClassificationModel

theorem le_foldl_max (xs : List ℚ) : ∀ (x y : ℚ), y ∈ x :: xs → y ≤ xs.foldl max x := by
  induction xs with
  | nil =>
    intro x y hy
    simp only [List.mem_singleton] at hy
    simp [hy]
  | cons z t ih =>
    intro x y hy
    rw [List.foldl_cons]
    have hmx : max x z ≤ t.foldl max (max x z) :=
      ih (max x z) (max x z) (List.mem_cons_self _ _)
    rcases List.mem_cons.mp hy with h | h
    · exact le_trans (h ▸ le_max_left x z) hmx
    · rcases List.mem_cons.mp h with h' | h'
      · exact le_trans (h' ▸ le_max_right x z) hmx
      · exact ih (max x z) y (List.mem_cons_of_mem _ h')

theorem foldl_max_mem (xs : List ℚ) : ∀ x, xs.foldl max x ∈ x :: xs := by
  induction xs with
  | nil => simp
  | cons z t ih =>
    intro x
    rw [List.foldl_cons]
    have := ih (max x z)
    rcases List.mem_cons.mp this with h | h
    · rcases max_choice x z with hm | hm
      · exact List.mem_cons.mpr (Or.inl (h.trans hm))
      · exact List.mem_cons.mpr (Or.inr (List.mem_cons.mpr (Or.inl (h.trans hm))))
    · exact List.mem_cons.mpr (Or.inr (List.mem_cons.mpr (Or.inr h)))

theorem mapE_ok_length {α β : Type} (f : α → Except PyError β) :
    ∀ (xs : List α) (ys : List β), mapE f xs = .ok ys → ys.length = xs.length := by
  intro xs
  induction xs with
  | nil =>
    intro ys h
    simp only [mapE] at h
    cases h
    rfl
  | cons x t ih =>
    intro ys h
    simp only [mapE] at h
    cases hfx : f x with
    | error e => rw [hfx] at h; cases h
    | ok y =>
      rw [hfx] at h
      cases hmt : mapE f t with
      | error e => rw [hmt] at h; cases h
      | ok ys' =>
        rw [hmt] at h
        cases h
        simp [ih ys' hmt]

theorem mapE_ok_nth {α β : Type} (f : α → Except PyError β) (d : α) (d' : β) :
    ∀ (xs : List α) (ys : List β), mapE f xs = .ok ys →
      ∀ i, i < xs.length → f (xs.getD i d) = .ok (ys.getD i d') := by
  intro xs
  induction xs with
  | nil => intro ys _ i hi; simp at hi
  | cons x t ih =>
    intro ys h i hi
    simp only [mapE] at h
    cases hfx : f x with
    | error e => rw [hfx] at h; cases h
    | ok y =>
      rw [hfx] at h
      cases hmt : mapE f t with
      | error e => rw [hmt] at h; cases h
      | ok ys' =>
        rw [hmt] at h
        cases h
        cases i with
        | zero => simpa using hfx
        | succ i =>
          simp only [List.getD_cons_succ]
          exact ih ys' hmt i (by simpa using hi)

theorem getD_map_snd (isotopes : List (String × ℚ)) (i : ℕ) (hi : i < isotopes.length) :
    (isotopes.map Prod.snd).getD i 0 = (isotopes.getD i ("", 0)).2 := by
  induction isotopes generalizing i with
  | nil => simp at hi
  | cons p t ih =>
    cases i with
    | zero => rfl
    | succ i => simpa using ih i (by simpa using hi)

theorem smooth_data_nonneg (savgol : List ℚ → List ℚ) (data sm : List ℚ)
    (h : smooth_data savgol data = .ok sm) : ∀ y ∈ sm, 0 ≤ y := by
  unfold SpectrumPreprocessing.smooth_data at h
  split at h
  · cases h
  · cases h
    intro y hy
    rcases List.mem_map.mp hy with ⟨z, _, rfl⟩
    exact le_max_right z 0

theorem npMax_is_ub (l : List ℚ) (m : ℚ) (h : npMax l = .ok m) : ∀ y ∈ l, y ≤ m := by
  unfold npMax at h
  split at h
  · cases h
  · cases h
    intro y hy
    exact le_foldl_max _ _ _ hy

theorem npMax_mem (l : List ℚ) (m : ℚ) (h : npMax l = .ok m) : m ∈ l := by
  unfold npMax at h
  split at h
  · cases h
  · cases h
    exact foldl_max_mem _ _

/-! Section: claim theorems -/

/-- C1: for every spectrum whose duration is strictly below 30 seconds,
`predict` returns the sentinel string `"Not Enough Data"` whatever the
smoothing filter, classifier, isotope table, counts, and calibration are;
the duration guard short-circuits before any feature extraction. -/
theorem predict_short_duration (savgol : List ℚ → List ℚ) (classifier : List ℚ → String)
    (isotopes : List (String × ℚ)) (sp : Spectrum)
    (h : sp.duration < 30) :
    predict savgol classifier isotopes sp = .ok "Not Enough Data" := by
  unfold IsotopesClassificationModel.predict
  rw [if_pos]
  exact h

theorem predict_short_duration_witness :
    predict id (fun _ => "Radium") [("Ra-226", 186)] ⟨10, 0, 3, 0, List.replicate 1024 5⟩ =
      .ok "Not Enough Data" :=
  predict_short_duration id (fun _ => "Radium") [("Ra-226", 186)] _ (by norm_num)

/-- C9: the function `_normalize` is pure and returns a fresh `Spectrum` whose
`duration`, `a0`, `a1`, `a2` equal the input's; only `counts` is
recomputed (in the embedding all values are immutable, so the input is
trivially unchanged by the call). -/
theorem normalize_frame (savgol : List ℚ → List ℚ) (sp spN : Spectrum)
    (h : SpectrumPreprocessing._normalize savgol sp = .ok spN) :
    spN.duration = sp.duration ∧ spN.a0 = sp.a0 ∧ spN.a1 = sp.a1 ∧ spN.a2 = sp.a2 := by
  unfold SpectrumPreprocessing._normalize at h
  split at h
  · cases h
  · split at h
    · cases h
    · cases h
      exact ⟨rfl, rfl, rfl, rfl⟩

theorem normalize_frame_witness :
    (Spectrum.mk 100 1 2 3 (List.replicate 20 1)).duration =
        (Spectrum.mk 100 1 2 3 (List.replicate 20 1)).duration ∧
      (Spectrum.mk 100 1 2 3 (List.replicate 20 1)).a0 =
        (Spectrum.mk 100 1 2 3 (List.replicate 20 1)).a0 ∧
      (Spectrum.mk 100 1 2 3 (List.replicate 20 1)).a1 =
        (Spectrum.mk 100 1 2 3 (List.replicate 20 1)).a1 ∧
      (Spectrum.mk 100 1 2 3 (List.replicate 20 1)).a2 =
        (Spectrum.mk 100 1 2 3 (List.replicate 20 1)).a2 := by
  have hs : smooth_data id (List.replicate 20 1) = .ok (List.replicate 20 1) := by decide
  have hm : npMax (List.replicate 20 1) = .ok 1 := by decide
  have h : SpectrumPreprocessing._normalize id ⟨100, 1, 2, 3, List.replicate 20 1⟩ =
      .ok ⟨100, 1, 2, 3, List.replicate 20 1⟩ := by
    simp only [SpectrumPreprocessing._normalize, hs, hm, List.map_replicate]
    norm_num
  exact normalize_frame id _ _ h

/-- C3: the function `energy_to_channel` fails exactly when the discriminant
`a1^2 - 4*a2*(a0 - e)` is negative (so `np.sqrt` yields `nan` and
`int(nan)` raises) or when `a2 = 0` (division by zero yields `inf`/`nan`
and `int` raises); otherwise it returns the root
`(sqrt(disc) - a1) / (2*a2)` truncated toward zero. -/
theorem energy_to_channel_spec (sp : Spectrum) (e : ℚ) :
    ((∃ err, energy_to_channel sp e = .error err) ↔
      (sp.a1 ^ 2 - 4 * sp.a2 * (sp.a0 - e) < 0 ∨ sp.a2 = 0)) ∧
    (¬ sp.a1 ^ 2 - 4 * sp.a2 * (sp.a0 - e) < 0 → sp.a2 ≠ 0 →
      energy_to_channel sp e =
        .ok (truncInt ((Real.sqrt ((sp.a1 ^ 2 - 4 * sp.a2 * (sp.a0 - e) : ℚ) : ℝ) -
          (sp.a1 : ℝ)) / (2 * (sp.a2 : ℝ))))) := by
  unfold energy_to_channel
  constructor
  · constructor
    · rintro ⟨err, h⟩
      by_contra hcon
      push_neg at hcon
      rw [if_neg (not_lt.mpr hcon.1), if_neg hcon.2] at h
      cases h
    · rintro (h | h)
      · rw [if_pos h]; exact ⟨.valueError, rfl⟩
      · by_cases hd : sp.a1 ^ 2 - 4 * sp.a2 * (sp.a0 - e) < 0
        · rw [if_pos hd]; exact ⟨.valueError, rfl⟩
        · rw [if_neg hd, if_pos h]
          by_cases ha1 : sp.a1 < 0
          · rw [if_pos ha1]; exact ⟨.overflowError, rfl⟩
          · rw [if_neg ha1]; exact ⟨.valueError, rfl⟩
  · intro hd ha2
    rw [if_neg hd, if_neg ha2]

/-- C5: for a spectrum whose smoothed counts have a strictly positive
maximum, `_normalize` succeeds and every normalized count lies in
`[0, 1]`, with the value `1` attained (the maximum element divided by
itself); the lower bound holds because `smooth_data` clamps every smoothed
value to be non-negative. -/
theorem normalize_range (savgol : List ℚ → List ℚ) (sp : Spectrum) (sm : List ℚ) (m : ℚ)
    (hs : smooth_data savgol sp.counts = .ok sm)
    (hm : npMax sm = .ok m) (hpos : 0 < m) :
    ∃ spN, SpectrumPreprocessing._normalize savgol sp = .ok spN ∧
      (∀ x ∈ spN.counts, 0 ≤ x ∧ x ≤ 1) ∧ (1 : ℚ) ∈ spN.counts := by
  refine ⟨⟨sp.duration, sp.a0, sp.a1, sp.a2, sm.map (fun x => x / m)⟩, ?_, ?_, ?_⟩
  · simp only [SpectrumPreprocessing._normalize, hs, hm]
  · intro x hx
    rcases List.mem_map.mp hx with ⟨y, hy, rfl⟩
    constructor
    · exact div_nonneg (smooth_data_nonneg savgol sp.counts sm hs y hy) (le_of_lt hpos)
    · exact (div_le_one hpos).mpr (npMax_is_ub sm m hm y hy)
  · exact List.mem_map.mpr ⟨m, npMax_mem sm m hm, div_self (ne_of_gt hpos)⟩

theorem normalize_range_witness :
    ∃ spN, SpectrumPreprocessing._normalize id ⟨100, 1, 2, 3, List.replicate 20 2⟩ = .ok spN ∧
      (∀ x ∈ spN.counts, 0 ≤ x ∧ x ≤ 1) ∧ (1 : ℚ) ∈ spN.counts :=
  normalize_range id ⟨100, 1, 2, 3, List.replicate 20 2⟩ (List.replicate 20 2) 2
    (by decide) (by decide) (by norm_num)

/-- C6: whenever `convert_to_features` succeeds, the feature vector has one
element per isotope-table entry, in table order: the `i`-th feature is the
normalized count read (with Python indexing) at the channel computed from
the `i`-th entry's reference energy. -/
theorem convert_to_features_shape (savgol : List ℚ → List ℚ) (sp : Spectrum)
    (isotopes : List (String × ℚ)) (fv : List ℚ)
    (h : convert_to_features savgol sp isotopes = .ok fv) :
    fv.length = isotopes.length ∧
    ∃ spN, SpectrumPreprocessing._normalize savgol sp = .ok spN ∧
      ∀ i, i < isotopes.length →
        ∃ ch : ℤ, energy_to_channel sp (isotopes.getD i ("", 0)).2 = .ok ch ∧
          pyIndex spN.counts ch = .ok (fv.getD i 0) := by
  unfold SpectrumPreprocessing.convert_to_features at h
  split at h
  · cases h
  next spN heqN =>
    split at h
    · cases h
    next channels heqC =>
      have hlenC : channels.length = isotopes.length := by
        rw [mapE_ok_length _ _ _ heqC, List.length_map]
      have hlenF : fv.length = channels.length := mapE_ok_length _ _ _ h
      refine ⟨hlenF.trans hlenC, spN, heqN, ?_⟩
      intro i hi
      refine ⟨channels.getD i 0, ?_, ?_⟩
      · have := mapE_ok_nth (fun energy => energy_to_channel sp energy) 0 0
          (isotopes.map Prod.snd) channels heqC i (by simpa using hi)
        rwa [getD_map_snd isotopes i hi] at this
      · exact mapE_ok_nth (fun ch => pyIndex spN.counts ch) 0 0
          channels fv h i (hlenC ▸ hi)

theorem energy_to_channel_spec_witness :
    energy_to_channel ⟨0, 116, 10, 1, []⟩ 100 = .ok (-2) := by
  have h := (energy_to_channel_spec ⟨0, 116, 10, 1, []⟩ 100).2 (by norm_num) (by norm_num)
  rw [h]
  congr 1
  show truncInt ((Real.sqrt (((10:ℚ) ^ 2 - 4 * 1 * ((116:ℚ) - 100) : ℚ) : ℝ) -
    ((10:ℚ) : ℝ)) / (2 * ((1:ℚ) : ℝ))) = -2
  have h36 : (((10:ℚ) ^ 2 - 4 * 1 * ((116:ℚ) - 100) : ℚ) : ℝ) = 6 ^ 2 := by
    push_cast; norm_num
  rw [h36, Real.sqrt_sq (by norm_num : (0:ℝ) ≤ 6)]
  have hv : ((6:ℝ) - ((10:ℚ) : ℝ)) / (2 * ((1:ℚ) : ℝ)) = -2 := by push_cast; norm_num
  rw [hv]
  unfold truncInt
  rw [if_neg (by norm_num)]
  rw [show ((-2 : ℝ)) = (((-2 : ℤ)) : ℝ) by push_cast; ring, Int.ceil_intCast]

/-! Section: concrete-evaluation helpers -/

theorem truncInt_intCast (z : ℤ) : truncInt (z : ℝ) = z := by
  unfold truncInt
  split_ifs
  · exact Int.floor_intCast z
  · exact Int.ceil_intCast z

theorem energy_to_channel_ok (sp : Spectrum) (e : ℚ)
    (hd : ¬ sp.a1 ^ 2 - 4 * sp.a2 * (sp.a0 - e) < 0) (ha : sp.a2 ≠ 0) :
    energy_to_channel sp e =
      .ok (truncInt ((Real.sqrt ((sp.a1 ^ 2 - 4 * sp.a2 * (sp.a0 - e) : ℚ) : ℝ) -
        (sp.a1 : ℝ)) / (2 * (sp.a2 : ℝ)))) := by
  unfold SpectrumPreprocessing.energy_to_channel
  rw [if_neg hd, if_neg ha]

theorem energy_to_channel_eval (sp : Spectrum) (e : ℚ) (r : ℝ) (z : ℤ)
    (ha : sp.a2 ≠ 0) (hr : 0 ≤ r)
    (hsq : ((sp.a1 ^ 2 - 4 * sp.a2 * (sp.a0 - e) : ℚ) : ℝ) = r ^ 2)
    (hz : (r - (sp.a1 : ℝ)) / (2 * (sp.a2 : ℝ)) = (z : ℝ)) :
    energy_to_channel sp e = .ok z := by
  have hd : ¬ sp.a1 ^ 2 - 4 * sp.a2 * (sp.a0 - e) < 0 := by
    rw [not_lt]
    have h0 : (0 : ℝ) ≤ ((sp.a1 ^ 2 - 4 * sp.a2 * (sp.a0 - e) : ℚ) : ℝ) := by
      rw [hsq]; positivity
    exact_mod_cast h0
  rw [energy_to_channel_ok sp e hd ha, hsq, Real.sqrt_sq hr, hz, truncInt_intCast]

theorem normalize_replicate_one (dur a0 a1 a2 : ℚ) :
    SpectrumPreprocessing._normalize id ⟨dur, a0, a1, a2, List.replicate 20 1⟩ =
      .ok ⟨dur, a0, a1, a2, List.replicate 20 1⟩ := by
  have hs : smooth_data id (List.replicate 20 (1 : ℚ)) = .ok (List.replicate 20 1) := by
    decide
  have hm : npMax (List.replicate 20 (1 : ℚ)) = .ok 1 := by decide
  simp only [SpectrumPreprocessing._normalize, hs, hm, List.map_replicate]
  norm_num

theorem convert_a2_zero (dur : ℚ) :
    convert_to_features id ⟨dur, 0, 0, 0, List.replicate 20 1⟩ [("Test", 50)] =
      .error .valueError := by
  have hnorm := normalize_replicate_one dur 0 0 0
  have hch : energy_to_channel ⟨dur, 0, 0, 0, List.replicate 20 1⟩ 50 =
      .error .valueError := by
    unfold SpectrumPreprocessing.energy_to_channel
    rw [if_neg (by norm_num), if_pos rfl, if_neg (by norm_num)]
  simp only [SpectrumPreprocessing.convert_to_features, hnorm, List.map_cons,
    List.map_nil, mapE, hch]

/-! Section: further claim theorems -/

/-- C2 counterexample: on a spectrum with sufficient duration (30 s) whose
calibration has `a2 = 0`, feature extraction raises (`int(nan)` →
`ValueError`) and `predict` propagates the raw exception to its caller
instead of returning any caught "prediction failed" outcome: there is no
exception handling in `IsotopesClassificationModel.predict`. -/
theorem predict_error_escape_cex :
    predict id (fun _ => "Am-241") [("Test", 50)] ⟨30, 0, 0, 0, List.replicate 20 1⟩ =
      .error .valueError := by
  have hconv := convert_a2_zero 30
  simp only [IsotopesClassificationModel.predict,
    IsotopesClassificationModel.MIN_SPECTRUM_DURATION_SEC]
  rw [if_neg (by norm_num)]
  simp only [hconv]

/-- C2 amended: the function `predict` does not catch feature-extraction failures; for
any spectrum passing the duration gate, whatever error feature extraction
produces is returned (propagated) unchanged by `predict`. -/
theorem predict_propagates_extraction_error (savgol : List ℚ → List ℚ)
    (classifier : List ℚ → String) (isotopes : List (String × ℚ)) (sp : Spectrum)
    (e : PyError)
    (hdur : ¬ sp.duration < IsotopesClassificationModel.MIN_SPECTRUM_DURATION_SEC)
    (hconv : convert_to_features savgol sp isotopes = .error e) :
    predict savgol classifier isotopes sp = .error e := by
  simp only [IsotopesClassificationModel.predict]
  rw [if_neg hdur]
  simp only [hconv]

theorem predict_propagates_extraction_error_witness :
    predict id (fun _ => "Am-241") [("Test", 50)] ⟨31, 0, 0, 0, List.replicate 20 1⟩ =
      .error .valueError :=
  predict_propagates_extraction_error id (fun _ => "Am-241") [("Test", 50)]
    ⟨31, 0, 0, 0, List.replicate 20 1⟩ .valueError
    (by rw [IsotopesClassificationModel.MIN_SPECTRUM_DURATION_SEC]; norm_num)
    (convert_a2_zero 31)

/-- C4 counterexample: an all-zero spectrum long enough for the smoothing
window has smoothed maximum `0`, yet `_normalize` does not fail: numpy
`counts/0` only warns (producing `nan` values) and the function returns a
`Spectrum`; no `InsufficientDataError` guard exists in the source. -/
theorem normalize_zero_max_cex :
    npMax (List.replicate 20 (0 : ℚ)) = .ok 0 ∧
    ∃ spN, SpectrumPreprocessing._normalize id ⟨100, 0, 3, 0, List.replicate 20 0⟩ =
      .ok spN := by
  have hs : smooth_data id (List.replicate 20 (0 : ℚ)) = .ok (List.replicate 20 0) := by
    decide
  have hm : npMax (List.replicate 20 (0 : ℚ)) = .ok 0 := by decide
  refine ⟨hm, ⟨100, 0, 3, 0, List.replicate 20 0⟩, ?_⟩
  simp only [SpectrumPreprocessing._normalize, hs, hm, List.map_replicate]
  norm_num

/-- C4 amended: for a length-preserving smoothing filter, `_normalize`
fails exactly when the counts are shorter than the smoothing window
(20 channels) — the only raising operation; a zero maximum does not make
it fail (the division silently proceeds). -/
theorem normalize_error_iff (savgol : List ℚ → List ℚ)
    (hsav : ∀ l, (savgol l).length = l.length) (sp : Spectrum) :
    (∃ e, SpectrumPreprocessing._normalize savgol sp = .error e) ↔
      sp.counts.length < 20 := by
  by_cases hlen : sp.counts.length < 20
  · refine ⟨fun _ => hlen, fun _ => ⟨.valueError, ?_⟩⟩
    simp only [SpectrumPreprocessing._normalize, SpectrumPreprocessing.smooth_data,
      if_pos hlen]
  · constructor
    · rintro ⟨e, he⟩
      exfalso
      have hsm : smooth_data savgol sp.counts =
          .ok ((savgol sp.counts).map (fun x => max x 0)) := by
        unfold SpectrumPreprocessing.smooth_data
        rw [if_neg hlen]
      have hlen2 : ((savgol sp.counts).map (fun x => max x 0)).length =
          sp.counts.length := by
        rw [List.length_map, hsav]
      obtain ⟨x, xs, hcons⟩ :
          ∃ x xs, (savgol sp.counts).map (fun x => max x 0) = x :: xs := by
        rcases hl : (savgol sp.counts).map (fun x => max x 0) with _ | ⟨x, xs⟩
        · rw [hl] at hlen2; simp at hlen2; omega
        · exact ⟨x, xs, rfl⟩
      rw [SpectrumPreprocessing._normalize, hsm, hcons] at he
      simp only [npMax] at he
      cases he
    · intro h
      exact absurd h hlen

theorem normalize_error_iff_witness :
    ∃ e, SpectrumPreprocessing._normalize id ⟨1, 0, 0, 0, ([] : List ℚ)⟩ = .error e :=
  (normalize_error_iff id (fun _ => rfl) ⟨1, 0, 0, 0, []⟩).mpr (by simp)

/-- C10: a reference energy below the calibrated range yields a negative
channel (here `-2`); Python indexing then wraps around silently, so
`convert_to_features` succeeds and reads the normalized count at index
`len + ch = 20 + (-2) = 18` — the high end of the array — rather than
failing with any out-of-range error (smoothing instantiated with the
identity filter). -/
theorem convert_wraps_negative_channel :
    energy_to_channel
        ⟨100, 116, 10, 1, [0, 0, 0, 0, 0, 0, 0, 0, 0, 0, 0, 0, 0, 0, 0, 0, 0, 0, 1, 0]⟩
        100 = .ok (-2) ∧
    pyIndex [0, 0, 0, 0, 0, 0, 0, 0, 0, 0, 0, 0, 0, 0, 0, 0, 0, 0, 1, 0] (-2) =
      .ok ([(0:ℚ), 0, 0, 0, 0, 0, 0, 0, 0, 0, 0, 0, 0, 0, 0, 0, 0, 0, 1, 0].getD 18 0) ∧
    convert_to_features id
        ⟨100, 116, 10, 1, [0, 0, 0, 0, 0, 0, 0, 0, 0, 0, 0, 0, 0, 0, 0, 0, 0, 0, 1, 0]⟩
        [("Test", 100)] = .ok [1] := by
  have hch : energy_to_channel
      ⟨100, 116, 10, 1, [0, 0, 0, 0, 0, 0, 0, 0, 0, 0, 0, 0, 0, 0, 0, 0, 0, 0, 1, 0]⟩
      100 = .ok (-2) :=
    energy_to_channel_eval _ 100 6 (-2) (by norm_num) (by norm_num)
      (by push_cast; norm_num) (by push_cast; norm_num)
  have hs : smooth_data id
      ([0, 0, 0, 0, 0, 0, 0, 0, 0, 0, 0, 0, 0, 0, 0, 0, 0, 0, 1, 0] : List ℚ) =
      .ok [0, 0, 0, 0, 0, 0, 0, 0, 0, 0, 0, 0, 0, 0, 0, 0, 0, 0, 1, 0] := by decide
  have hm : npMax ([0, 0, 0, 0, 0, 0, 0, 0, 0, 0, 0, 0, 0, 0, 0, 0, 0, 0, 1, 0] : List ℚ) =
      .ok 1 := by decide
  have hnorm : SpectrumPreprocessing._normalize id
      ⟨100, 116, 10, 1, [0, 0, 0, 0, 0, 0, 0, 0, 0, 0, 0, 0, 0, 0, 0, 0, 0, 0, 1, 0]⟩ =
      .ok ⟨100, 116, 10, 1, [0, 0, 0, 0, 0, 0, 0, 0, 0, 0, 0, 0, 0, 0, 0, 0, 0, 0, 1, 0]⟩ := by
    simp only [SpectrumPreprocessing._normalize, hs, hm]
    norm_num [List.map]
  have hpy : pyIndex ([0, 0, 0, 0, 0, 0, 0, 0, 0, 0, 0, 0, 0, 0, 0, 0, 0, 0, 1, 0] : List ℚ)
      (-2) = .ok 1 := by decide
  refine ⟨hch, by decide, ?_⟩
  simp only [SpectrumPreprocessing.convert_to_features, hnorm, List.map_cons,
    List.map_nil, mapE, hch, hpy]

theorem convert_to_features_shape_witness :
    [(1:ℚ)].length = [("Test", (2:ℚ))].length ∧
    ∃ spN, SpectrumPreprocessing._normalize id ⟨100, 0, 1, 1, List.replicate 20 1⟩ =
        .ok spN ∧
      ∀ i, i < [("Test", (2:ℚ))].length →
        ∃ ch : ℤ, energy_to_channel ⟨100, 0, 1, 1, List.replicate 20 1⟩
            ([("Test", (2:ℚ))].getD i ("", 0)).2 = .ok ch ∧
          pyIndex spN.counts ch = .ok ([(1:ℚ)].getD i 0) := by
  have hch : energy_to_channel ⟨100, 0, 1, 1, List.replicate 20 1⟩ 2 = .ok 1 :=
    energy_to_channel_eval _ 2 3 1 (by norm_num) (by norm_num)
      (by push_cast; norm_num) (by push_cast; norm_num)
  have hnorm := normalize_replicate_one 100 0 1 1
  have hpy : pyIndex (List.replicate 20 (1:ℚ)) 1 = .ok 1 := by decide
  refine convert_to_features_shape id ⟨100, 0, 1, 1, List.replicate 20 1⟩
    [("Test", 2)] [1] ?_
  simp only [SpectrumPreprocessing.convert_to_features, hnorm, List.map_cons,
    List.map_nil, mapE, hch, hpy]

theorem quad_root_eval (t u a E D s : ℝ) (hup : 0 < u)
    (hDval : D = t ^ 2 - 4 * u * (a - E)) (hs2 : s ^ 2 = D) :
    a + t * ((s - t) / (2 * u)) + u * ((s - t) / (2 * u)) ^ 2 = E := by
  have h2u : (2 * u) ≠ 0 := by positivity
  field_simp
  nlinarith [hs2, hDval]

theorem quad_step_bound (t u a E r c : ℝ) (htn : 0 ≤ t) (hup : 0 < u)
    (hroot : a + t * r + u * r ^ 2 = E) (hc0 : 0 ≤ c) (hcle : c ≤ r) (hclt : r < c + 1) :
    (a + t * c + u * c ^ 2) - E ≤
      (a + t * (c + 1) + u * (c + 1) ^ 2) - (a + t * c + u * c ^ 2) ∧
    E - (a + t * c + u * c ^ 2) ≤
      (a + t * (c + 1) + u * (c + 1) ^ 2) - (a + t * c + u * c ^ 2) := by
  have hr0 : 0 ≤ r := le_trans hc0 hcle
  have f1 : a + t * c + u * c ^ 2 ≤ E := by
    nlinarith [hroot, mul_nonneg (sub_nonneg.mpr hcle)
      (add_nonneg (add_nonneg htn (mul_nonneg hup.le hr0)) (mul_nonneg hup.le hc0))]
  have f2 : E ≤ a + t * (c + 1) + u * (c + 1) ^ 2 := by
    nlinarith [hroot, mul_nonneg (sub_nonneg.mpr hclt.le)
      (add_nonneg (add_nonneg htn (mul_nonneg hup.le (by linarith : (0:ℝ) ≤ c + 1)))
        (mul_nonneg hup.le hr0))]
  have f3 : 0 ≤ (a + t * (c + 1) + u * (c + 1) ^ 2) - (a + t * c + u * c ^ 2) := by
    nlinarith [mul_nonneg hup.le hc0]
  exact ⟨by linarith, by linarith⟩

/-- C7: for an increasing calibration (`0 ≤ a1`, `0 < a2`) and an energy at
or above the calibrated origin (`a0 ≤ e`), `energy_to_channel` succeeds,
and evaluating the calibration at the returned (truncated) channel gives
back an energy within one channel's energy width of `e` — the width being
`channel_to_energy (c+1) - channel_to_energy c` at the returned channel. -/
theorem calibration_round_trip (sp : Spectrum) (e : ℚ)
    (h1 : 0 ≤ sp.a1) (h2 : 0 < sp.a2) (h3 : sp.a0 ≤ e) :
    ∃ c : ℤ, energy_to_channel sp e = .ok c ∧
      |channel_to_energy sp (c : ℚ) - e| ≤
        channel_to_energy sp ((c : ℚ) + 1) - channel_to_energy sp (c : ℚ) := by
  have hd : 0 ≤ sp.a1 ^ 2 - 4 * sp.a2 * (sp.a0 - e) := by
    nlinarith [sq_nonneg sp.a1, mul_nonneg (le_of_lt h2) (sub_nonneg.mpr h3)]
  have hdneg : ¬ sp.a1 ^ 2 - 4 * sp.a2 * (sp.a0 - e) < 0 := not_lt.mpr hd
  have ha2 : sp.a2 ≠ 0 := ne_of_gt h2
  have hD : (0 : ℝ) ≤ ((sp.a1 ^ 2 - 4 * sp.a2 * (sp.a0 - e) : ℚ) : ℝ) := by
    exact_mod_cast hd
  have hup : (0 : ℝ) < (sp.a2 : ℝ) := by exact_mod_cast h2
  have htn : (0 : ℝ) ≤ (sp.a1 : ℝ) := by exact_mod_cast h1
  have hsa1 : (sp.a1 : ℝ) ≤ Real.sqrt ((sp.a1 ^ 2 - 4 * sp.a2 * (sp.a0 - e) : ℚ) : ℝ) := by
    rw [Real.le_sqrt htn hD]
    have hq : sp.a1 ^ 2 ≤ sp.a1 ^ 2 - 4 * sp.a2 * (sp.a0 - e) := by
      nlinarith [mul_nonneg (le_of_lt h2) (sub_nonneg.mpr h3)]
    exact_mod_cast hq
  set r : ℝ := (Real.sqrt ((sp.a1 ^ 2 - 4 * sp.a2 * (sp.a0 - e) : ℚ) : ℝ) - (sp.a1 : ℝ)) /
    (2 * (sp.a2 : ℝ)) with hrdef
  have hr0 : 0 ≤ r := div_nonneg (sub_nonneg.mpr hsa1) (by positivity)
  have hchan : energy_to_channel sp e = .ok ⌊r⌋ := by
    rw [energy_to_channel_ok sp e hdneg ha2]
    congr 1
    rw [← hrdef]
    unfold truncInt
    rw [if_pos hr0]
  have hcle : ((⌊r⌋ : ℤ) : ℝ) ≤ r := Int.floor_le r
  have hclt : r < ((⌊r⌋ : ℤ) : ℝ) + 1 := Int.lt_floor_add_one r
  have hc0 : (0 : ℝ) ≤ ((⌊r⌋ : ℤ) : ℝ) := by exact_mod_cast Int.floor_nonneg.mpr hr0
  have hroot : (sp.a0 : ℝ) + (sp.a1 : ℝ) * r + (sp.a2 : ℝ) * r ^ 2 = (e : ℝ) := by
    rw [hrdef]
    exact quad_root_eval (sp.a1 : ℝ) (sp.a2 : ℝ) (sp.a0 : ℝ) (e : ℝ) _ _ hup
      (by push_cast; ring) (Real.sq_sqrt hD)
  have hbound := quad_step_bound (sp.a1 : ℝ) (sp.a2 : ℝ) (sp.a0 : ℝ) (e : ℝ) r
    ((⌊r⌋ : ℤ) : ℝ) htn hup hroot hc0 hcle hclt
  refine ⟨⌊r⌋, hchan, ?_⟩
  rw [abs_sub_le_iff]
  unfold SpectrumPreprocessing.channel_to_energy
  constructor
  · exact_mod_cast hbound.1
  · exact_mod_cast hbound.2

theorem calibration_round_trip_witness :
    ∃ c : ℤ, energy_to_channel ⟨100, 0, 0, 1, []⟩ 5 = .ok c ∧
      |channel_to_energy ⟨100, 0, 0, 1, []⟩ (c : ℚ) - 5| ≤
        channel_to_energy ⟨100, 0, 0, 1, []⟩ ((c : ℚ) + 1) -
          channel_to_energy ⟨100, 0, 0, 1, []⟩ (c : ℚ) :=
  calibration_round_trip ⟨100, 0, 0, 1, []⟩ 5 (by norm_num) (by norm_num) (by norm_num)

/-! Section: serialization lemmas -/

theorem digitChar_mem (d : ℕ) : digitChar d ∈ digitChars := by
  unfold digitChar digitChars
  split_ifs <;> decide

theorem charDigit_digitChar (d : ℕ) (h : d < 10) : charDigit (digitChar d) = d := by
  interval_cases d <;> rfl

theorem mem_digitChars_sep (c : Char) (h : c ∈ digitChars) :
    c ≠ ';' ∧ c ≠ ',' ∧ c ≠ '-' := by
  fin_cases h <;> exact ⟨by decide, by decide, by decide⟩

theorem natChars_lt_ten (n : ℕ) (h : n < 10) : natChars n = [digitChar n] := by
  rw [natChars, natCharsAux, if_pos h]

theorem natCharsAux_eq (n : ℕ) : ∀ acc, natCharsAux n acc = natChars n ++ acc := by
  induction n using Nat.strong_induction_on with
  | _ n ih =>
    intro acc
    by_cases h : n < 10
    · rw [natCharsAux, if_pos h, natChars_lt_ten n h]
      rfl
    · have hlt : n / 10 < n := Nat.div_lt_self (by omega) (by omega)
      rw [natCharsAux, if_neg h, ih (n / 10) hlt (digitChar (n % 10) :: acc)]
      conv_rhs => rw [natChars, natCharsAux, if_neg h, ih (n / 10) hlt [digitChar (n % 10)]]
      simp

theorem natChars_ge_ten (n : ℕ) (h : ¬ n < 10) :
    natChars n = natChars (n / 10) ++ [digitChar (n % 10)] := by
  rw [natChars, natCharsAux, if_neg h, natCharsAux_eq]

theorem natChars_ne_nil (n : ℕ) : natChars n ≠ [] := by
  by_cases h : n < 10
  · rw [natChars_lt_ten n h]; simp
  · rw [natChars_ge_ten n h]; simp

theorem natChars_digits (n : ℕ) : ∀ c ∈ natChars n, c ∈ digitChars := by
  induction n using Nat.strong_induction_on with
  | _ n ih =>
    by_cases h : n < 10
    · rw [natChars_lt_ten n h]
      intro c hc
      rw [List.mem_singleton] at hc
      exact hc ▸ digitChar_mem n
    · rw [natChars_ge_ten n h]
      intro c hc
      rcases List.mem_append.mp hc with hc | hc
      · exact ih (n / 10) (Nat.div_lt_self (by omega) (by omega)) c hc
      · rw [List.mem_singleton] at hc
        exact hc ▸ digitChar_mem (n % 10)

theorem parseNat_from (n : ℕ) :
    ∀ a : ℕ, (natChars n).foldl (fun acc c => 10 * acc + charDigit c) a =
      a * 10 ^ (natChars n).length + n := by
  induction n using Nat.strong_induction_on with
  | _ n ih =>
    intro a
    by_cases h : n < 10
    · rw [natChars_lt_ten n h]
      simp [charDigit_digitChar n h]
      ring
    · have hlt : n / 10 < n := Nat.div_lt_self (by omega) (by omega)
      rw [natChars_ge_ten n h, List.foldl_append, ih (n / 10) hlt a]
      simp only [List.foldl_cons, List.foldl_nil, List.length_append,
        List.length_singleton]
      rw [charDigit_digitChar (n % 10) (Nat.mod_lt n (by omega))]
      have : 10 * (a * 10 ^ (natChars (n / 10)).length + n / 10) + n % 10 =
          a * (10 ^ (natChars (n / 10)).length * 10) + (10 * (n / 10) + n % 10) := by ring
      rw [this, Nat.div_add_mod n 10, pow_succ]

theorem parseNat_natChars (n : ℕ) : parseNat (natChars n) = n := by
  rw [parseNat, parseNat_from n 0]
  simp

theorem natChars_head_digit (n : ℕ) :
    ∃ c t, natChars n = c :: t ∧ c ∈ digitChars := by
  obtain ⟨c, t, h⟩ := List.exists_cons_of_ne_nil (natChars_ne_nil n)
  exact ⟨c, t, h, natChars_digits n c (h ▸ List.mem_cons_self c t)⟩

theorem parseInt_intChars (z : ℤ) : parseInt (intChars z) = z := by
  by_cases h : z < 0
  · rw [intChars, if_pos h, parseInt,
      if_pos (show (('-' :: natChars z.natAbs).head? = some '-') from rfl)]
    simp only [List.tail_cons]
    rw [parseNat_natChars]
    omega
  · rw [intChars, if_neg h, parseInt]
    obtain ⟨c, t, hct, hdig⟩ := natChars_head_digit z.toNat
    rw [hct, if_neg ?hne, ← hct, parseNat_natChars]
    · omega
    case hne =>
      simp only [List.head?_cons, Option.some.injEq]
      exact (mem_digitChars_sep c hdig).2.2

theorem validNat_natChars (n : ℕ) : validNat (natChars n) = true := by
  unfold validNat
  rw [Bool.and_eq_true, List.all_eq_true]
  constructor
  · simpa [List.isEmpty_iff] using natChars_ne_nil n
  · intro c hc
    exact decide_eq_true (natChars_digits n c hc)

theorem validInt_intChars (z : ℤ) : validInt (intChars z) = true := by
  by_cases h : z < 0
  · rw [intChars, if_pos h, validInt,
      if_pos (show (('-' :: natChars z.natAbs).head? = some '-') from rfl)]
    simp only [List.tail_cons]
    exact validNat_natChars _
  · rw [intChars, if_neg h, validInt]
    obtain ⟨c, t, hct, hdig⟩ := natChars_head_digit z.toNat
    rw [hct, if_neg ?hne2, ← hct]
    · exact validNat_natChars _
    case hne2 =>
      simp only [List.head?_cons, Option.some.injEq]
      exact (mem_digitChars_sep c hdig).2.2

theorem splitSep_ne_nil (sep : Char) (cs : List Char) : splitSep sep cs ≠ [] := by
  induction cs with
  | nil => simp [splitSep]
  | cons c t ih =>
    rw [splitSep]
    rcases hs : splitSep sep t with _ | ⟨h', t'⟩
    · simp
    · split_ifs <;> simp

theorem splitSep_no_sep (sep : Char) (x : List Char) (hx : sep ∉ x) :
    splitSep sep x = [x] := by
  induction x with
  | nil => rfl
  | cons c t ih =>
    have hcs : c ≠ sep := fun h => hx (h ▸ List.mem_cons_self c t)
    have hts : sep ∉ t := fun h => hx (List.mem_cons_of_mem c h)
    rw [splitSep, ih hts]
    dsimp only
    rw [if_neg hcs]

theorem splitSep_append (sep : Char) (x rest : List Char) (hx : sep ∉ x) :
    splitSep sep (x ++ sep :: rest) = x :: splitSep sep rest := by
  induction x with
  | nil =>
    rw [List.nil_append, splitSep]
    obtain ⟨h', t', hs⟩ : ∃ h' t', splitSep sep rest = h' :: t' := by
      rcases hr : splitSep sep rest with _ | ⟨h', t'⟩
      · exact absurd hr (splitSep_ne_nil sep rest)
      · exact ⟨h', t', rfl⟩
    rw [hs]
    dsimp only
    rw [if_pos rfl, ← hs]
  | cons c t ih =>
    have hcs : c ≠ sep := fun h => hx (h ▸ List.mem_cons_self c t)
    have hts : sep ∉ t := fun h => hx (List.mem_cons_of_mem c h)
    rw [List.cons_append, splitSep, ih hts]
    dsimp only
    rw [if_neg hcs]

theorem splitSep_joinSep (sep : Char) :
    ∀ xss : List (List Char), xss ≠ [] → (∀ xs ∈ xss, sep ∉ xs) →
      splitSep sep (joinSep sep xss) = xss := by
  intro xss
  induction xss with
  | nil => intro h; exact absurd rfl h
  | cons x t ih =>
    intro _ hsep
    cases t with
    | nil =>
      rw [joinSep]
      exact splitSep_no_sep sep x (hsep x (List.mem_cons_self x []))
    | cons y t' =>
      rw [joinSep, splitSep_append sep x _ (hsep x (List.mem_cons_self x _)),
        ih (by simp) (fun xs hxs => hsep xs (List.mem_cons_of_mem x hxs))]

theorem joinSep_mem (sep : Char) :
    ∀ (xss : List (List Char)) (c : Char), c ∈ joinSep sep xss →
      c = sep ∨ ∃ xs ∈ xss, c ∈ xs := by
  intro xss
  induction xss with
  | nil => intro c hc; cases hc
  | cons x t ih =>
    intro c hc
    cases t with
    | nil =>
      rw [joinSep] at hc
      exact Or.inr ⟨x, List.mem_cons_self x [], hc⟩
    | cons y t' =>
      rw [joinSep] at hc
      rcases List.mem_append.mp hc with hc | hc
      · exact Or.inr ⟨x, List.mem_cons_self x _, hc⟩
      · rcases List.mem_cons.mp hc with hc | hc
        · exact Or.inl hc
        · rcases ih c hc with h | ⟨xs, hxs, hcx⟩
          · exact Or.inl h
          · exact Or.inr ⟨xs, List.mem_cons_of_mem x hxs, hcx⟩

theorem natChars_no_semi (n : ℕ) : ';' ∉ natChars n :=
  fun h => (mem_digitChars_sep _ (natChars_digits n _ h)).1 rfl

theorem natChars_no_comma (n : ℕ) : ',' ∉ natChars n :=
  fun h => (mem_digitChars_sep _ (natChars_digits n _ h)).2.1 rfl

theorem intChars_no_semi (z : ℤ) : ';' ∉ intChars z := by
  unfold intChars
  split_ifs
  · intro h
    rcases List.mem_cons.mp h with h | h
    · cases h
    · exact natChars_no_semi _ h
  · exact natChars_no_semi _

theorem counts_join_no_semi (counts : List ℕ) :
    ';' ∉ joinSep ',' (counts.map natChars) := by
  intro h
  rcases joinSep_mem ',' _ ';' h with h | ⟨xs, hxs, hmem⟩
  · cases h
  · rcases List.mem_map.mp hxs with ⟨n, _, rfl⟩
    exact natChars_no_semi n hmem

/-- Round-trip core: parsing the serialization of any integer-valued
spectrum with at least one count recovers the spectrum exactly. -/
theorem load_from_text_to_string (sp : SpectrumZ) (hc : sp.counts ≠ []) :
    load_from_text (to_string sp) = some sp := by
  unfold SpectrumPreprocessing.to_string SpectrumPreprocessing.load_from_text
  have hfields : splitSep ';'
      (joinSep ';' [natChars sp.duration, intChars sp.a0, intChars sp.a1, intChars sp.a2,
        joinSep ',' (sp.counts.map natChars)]) =
      [natChars sp.duration, intChars sp.a0, intChars sp.a1, intChars sp.a2,
        joinSep ',' (sp.counts.map natChars)] := by
    refine splitSep_joinSep ';' _ (by simp) ?_
    intro xs hxs
    simp only [List.mem_cons, List.mem_singleton] at hxs
    rcases hxs with rfl | rfl | rfl | rfl | rfl | h
    · exact natChars_no_semi _
    · exact intChars_no_semi _
    · exact intChars_no_semi _
    · exact intChars_no_semi _
    · exact counts_join_no_semi _
    · cases h
  rw [hfields]
  have hcounts : splitSep ',' (joinSep ',' (sp.counts.map natChars)) =
      sp.counts.map natChars := by
    refine splitSep_joinSep ',' _ (by simpa using hc) ?_
    intro xs hxs
    rcases List.mem_map.mp hxs with ⟨n, _, rfl⟩
    exact natChars_no_comma n
  dsimp only
  rw [hcounts]
  rw [if_pos]
  · obtain ⟨d, b0, b1, b2, cs⟩ := sp
    simp only [Option.some.injEq, SpectrumZ.mk.injEq]
    refine ⟨parseNat_natChars _, parseInt_intChars _, parseInt_intChars _,
      parseInt_intChars _, ?_⟩
    rw [List.map_map]
    have hmap : ∀ x ∈ cs, (parseNat ∘ natChars) x = id x := fun x _ =>
      parseNat_natChars x
    rw [List.map_congr_left hmap, List.map_id]
  · rw [validNat_natChars, validInt_intChars, validInt_intChars, validInt_intChars]
    simp only [Bool.true_and]
    rw [List.all_eq_true]
    intro xs hxs
    rcases List.mem_map.mp hxs with ⟨n, _, rfl⟩
    exact validNat_natChars n

/-- C8: for every well-formed string in the debug text layout
`duration_seconds;a0;a1;a2;count0,...,countN` (well-formed: the
serialization of an integer-valued spectrum with at least one count),
parsing it and re-serializing reproduces the string exactly. -/
theorem to_string_round_trip (s : List Char) (h : wellFormedText s) :
    (load_from_text s).map to_string = some s := by
  obtain ⟨sp, hc, rfl⟩ := h
  rw [load_from_text_to_string sp hc, Option.map_some']

theorem to_string_round_trip_witness :
    (load_from_text (to_string ⟨30, 0, 3, 0, [5, 7]⟩)).map to_string =
      some (to_string ⟨30, 0, 3, 0, [5, 7]⟩) :=
  to_string_round_trip _ ⟨⟨30, 0, 3, 0, [5, 7]⟩, by simp, rfl⟩

end GammaSpec
